import Mathlib

/-!
# Verification of the RAG pipeline of `nextjs-gpt`

Shallow embedding of the pipeline module (`utils/pinecone`-style file, given as
`src/unnamed/part_000`) exporting three functions:

* `queryPineconeVectorStoreAndQueryLLM` — the query orchestrator;
* `createPineconeIndex` — index existence check / creation;
* `updatePinecone` — the ingestion orchestrator.

External services (embedding API, vector index, completion chain, the text
splitter library) are modelled as environments of pure functions; fallible
calls return `Except Err _`.  Each orchestrator is embedded as a pure function
from its environment and arguments to its result together with the ordered
trace of external calls it issues, so that claims about "which calls are made,
with which payloads, in which order" become statements about the trace.
-/

/-- Errors thrown by the external services; carried opaquely (the code never
inspects them, it only propagates). -/
abbrev Err : Type := String

/-- An embedding vector (`number[]` in the source); the pipeline never inspects
its entries, so the carrier is irrelevant. -/
abbrev Emb : Type := List Int

/-- Metadata of an input document; the ingestion code reads `doc.metadata.source`. -/
structure DocMeta where
  source : String
deriving DecidableEq

/-- An input document (`langchain` `Document`): `doc.pageContent` and `doc.metadata`. -/
structure Doc where
  pageContent : String
  metadata : DocMeta
deriving DecidableEq

/-- Metadata of a chunk produced by `RecursiveCharacterTextSplitter.createDocuments`:
the splitter attaches a `loc` object, modelled opaquely as a string. -/
structure ChunkMeta where
  loc : String
deriving DecidableEq

/-- A text chunk produced by the splitter. -/
structure Chunk where
  pageContent : String
  metadata : ChunkMeta
deriving DecidableEq

/-- Metadata stored on an upserted vector (source lines 160–165):
`{ ...chunk.metadata, loc: JSON.stringify(chunk.metadata.loc), pageContent: chunk.pageContent, txtPath }`;
the spread contributes only `loc`, which the explicit `loc:` entry overwrites. -/
structure VectorMeta where
  loc : String
  pageContent : String
  txtPath : String
deriving DecidableEq

/-- A vector record as assembled on source lines 157–166. -/
structure PineVector where
  id : String
  values : Emb
  metadata : VectorMeta
deriving DecidableEq

/-- Modelled from the spec: the repository's configuration module (`../config`,
imported on source line 6 but not under `src/`).  Per the spec, environment-driven
configuration supplies the index-initialization `timeout` used by
`createPineconeIndex`, and is expected to supply index name, vector dimension,
a batch size and a debug flag. -/
structure Config where
  timeout : Nat
  batchSize : Nat
deriving DecidableEq

/-! ## Ingestion orchestrator (`updatePinecone`, source lines 122–182) -/

/-- External calls issued while ingesting, in program order. -/
inductive IngestEvent where
  /-- `textSplitter.createDocuments([text])` (line 139). -/
  | splitCall (text : String)
  /-- `new OpenAIEmbeddings().embedDocuments(texts)` (lines 145–147). -/
  | embedCall (texts : List String)
  /-- `index.upsert({ upsertRequest: { vectors } })` (lines 170–174). -/
  | upsertCall (vectors : List PineVector)
deriving DecidableEq

/-- Environment of `updatePinecone`: the text-splitter library, the embedding
service, the retrieved index handle `client.Index(indexName)`, and
`JSON.stringify` applied to a chunk's `loc`. -/
structure UpdateEnv where
  /-- `new RecursiveCharacterTextSplitter({chunkSize: 1000}).createDocuments([text])`. -/
  splitText : String → List Chunk
  /-- The embedding endpoint; may fail. -/
  embedDocuments : List String → Except Err (List Emb)
  /-- An upsert request on the index handle; may fail. -/
  upsert : List PineVector → Except Err Unit
  /-- `JSON.stringify` on the opaque `loc` value. -/
  stringifyLoc : String → String

/-- `chunk.pageContent.replace(/\n/g, " ")` (source line 146): every newline
replaced by a space. -/
def removeNewlines (s : String) : String :=
  String.mk (s.data.map fun c => if c = '\n' then ' ' else c)

/-- The chunks of one document: `textSplitter.createDocuments([doc.pageContent])`
(source line 139). -/
def docChunks (env : UpdateEnv) (doc : Doc) : List Chunk :=
  env.splitText doc.pageContent

/-- The texts sent to the embedding endpoint for one document (source line 146):
the chunks' `pageContent` with newlines replaced by spaces. -/
def embedInputs (env : UpdateEnv) (doc : Doc) : List String :=
  (docChunks env doc).map fun chunk => removeNewlines chunk.pageContent

/-- The vector records of source lines 155–166, built from chunk `idx` upward:
`id` is `` `${txtPath}_${idx}` ``, `values` is `embeddingsArrays[idx]`, metadata
keeps the chunk's original `pageContent`. -/
def mkVectorsFrom (env : UpdateEnv) (txtPath : String) (embeddingsArrays : List Emb)
    (idx : Nat) : List Chunk → List PineVector
  | [] => []
  | chunk :: rest =>
    { id := txtPath ++ "_" ++ toString idx
      values := embeddingsArrays.getD idx default
      metadata :=
        { loc := env.stringifyLoc chunk.metadata.loc
          pageContent := chunk.pageContent
          txtPath := txtPath } } :: mkVectorsFrom env txtPath embeddingsArrays (idx + 1) rest

/-- All vector records of one document, in chunk order. -/
def docVectors (env : UpdateEnv) (doc : Doc) (embeddingsArrays : List Emb) : List PineVector :=
  mkVectorsFrom env doc.metadata.source embeddingsArrays 0 (docChunks env doc)

/-- `const batchSize = 10` (source line 153): a local constant of
`updatePinecone`, not read from configuration. -/
def batchSize : Nat := 10

/-- The batching loop of source lines 154–178: accumulate vectors into `batch`;
when the batch is full (`batch.length === batchSize`) or the current vector is
the last one (`idx === chunks.length - 1`, i.e. nothing remains), flush it.
Returns the list of upsert payloads in order. -/
def upsertBatches (bs : Nat) (batch : List PineVector) :
    List PineVector → List (List PineVector)
  | [] => []
  | vector :: rest =>
    if (batch ++ [vector]).length = bs ∨ rest = [] then
      (batch ++ [vector]) :: upsertBatches bs [] rest
    else
      upsertBatches bs (batch ++ [vector]) rest

/-- Issue the upsert calls one batch at a time (source lines 170–177); stop at
the first failure, which propagates. -/
def runUpserts (env : UpdateEnv) : List (List PineVector) → List IngestEvent × Option Err
  | [] => ([], none)
  | b :: rest =>
    match env.upsert b with
    | .ok _ =>
      (IngestEvent.upsertCall b :: (runUpserts env rest).1, (runUpserts env rest).2)
    | .error e => ([IngestEvent.upsertCall b], some e)

/-- Process one document (body of the `for (const doc of docs)` loop, source
lines 129–181): split, embed (newline-stripped texts), build vectors, upsert in
batches.  A failed embedding or upsert stops the document and propagates. -/
def processDoc (env : UpdateEnv) (doc : Doc) : List IngestEvent × Option Err :=
  match env.embedDocuments (embedInputs env doc) with
  | .error e =>
    ([IngestEvent.splitCall doc.pageContent, IngestEvent.embedCall (embedInputs env doc)],
     some e)
  | .ok embeddingsArrays =>
    (IngestEvent.splitCall doc.pageContent ::
       IngestEvent.embedCall (embedInputs env doc) ::
       (runUpserts env (upsertBatches batchSize [] (docVectors env doc embeddingsArrays))).1,
     (runUpserts env (upsertBatches batchSize [] (docVectors env doc embeddingsArrays))).2)

/-- `updatePinecone(client, indexName, docs)` (source lines 122–182): process the
documents in order; the first failure aborts the remaining documents and
propagates to the caller (the `await`ed rejection is not caught). -/
def updatePinecone (env : UpdateEnv) (indexName : String) : List Doc →
    List IngestEvent × Option Err
  | [] => ([], none)
  | doc :: rest =>
    match (processDoc env doc).2 with
    | some e => ((processDoc env doc).1, some e)
    | none =>
      ((processDoc env doc).1 ++ (updatePinecone env indexName rest).1,
       (updatePinecone env indexName rest).2)

/-- The vectors contained in the upsert calls of a trace, in order. -/
def upsertedVectors (evs : List IngestEvent) : List PineVector :=
  evs.flatMap fun e =>
    match e with
    | IngestEvent.upsertCall vs => vs
    | _ => []

/-- The ids of the upserted vectors of a trace, in order. -/
def upsertedIds (evs : List IngestEvent) : List String :=
  (upsertedVectors evs).map fun v => v.id

/-! ## Index creation (`createPineconeIndex`, source lines 88–119) -/

/-- The request of `client.createIndex` (source lines 102–108). -/
structure CreateRequest where
  name : String
  dimension : Nat
  metric : String
deriving DecidableEq

/-- External calls issued by `createPineconeIndex`. -/
inductive IdxEvent where
  /-- `client.createIndex({ createRequest })`. -/
  | createIndex (req : CreateRequest)
  /-- `await new Promise((resolve) => setTimeout(resolve, ms))` (line 114). -/
  | waitDelay (ms : Nat)
deriving DecidableEq

/-- Environment of `createPineconeIndex`: the result of `client.listIndexes()`. -/
structure IndexEnv where
  listIndexes : List String

/-- `createPineconeIndex(client, indexName, vectorDimension)` (source lines
88–119): create the index with metric `"cosine"` and wait `timeout` (from the
config module) if and only if `listIndexes` does not contain the name.
Returns the trace of external calls. -/
def createPineconeIndex (cfg : Config) (env : IndexEnv) (indexName : String)
    (vectorDimension : Nat) : List IdxEvent :=
  let existingIndexes := env.listIndexes
  if ¬ existingIndexes.contains indexName then
    [IdxEvent.createIndex
      { name := indexName, dimension := vectorDimension, metric := "cosine" },
     IdxEvent.waitDelay cfg.timeout]
  else
    []

/-! ## Completion streaming (callbacks of source lines 49–64) -/

/-- Terminal state of the `TransformStream` writer. -/
inductive StreamTerminal where
  | streamOpen
  | closed
  | aborted (e : Err)
deriving DecidableEq

/-- The observable state of the output stream: the sequence of token payloads
written (each written as `encoder.encode(token)`; the fixed UTF-8 encoding is
injective and elided) and the terminal state. -/
structure WriterState where
  written : List String
  terminal : StreamTerminal
deriving DecidableEq

/-- The stream before any callback fires. -/
def initialWriter : WriterState := { written := [], terminal := StreamTerminal.streamOpen }

/-- `handleLLMNewToken` (source lines 51–54): write the encoded token. -/
def handleLLMNewToken (st : WriterState) (token : String) : WriterState :=
  { st with written := st.written ++ [token] }

/-- `handleLLMEnd` (source lines 55–58): close the writer. -/
def handleLLMEnd (st : WriterState) : WriterState :=
  { st with terminal := StreamTerminal.closed }

/-- `handleLLMError` (source lines 59–62): abort the writer with the error. -/
def handleLLMError (st : WriterState) (e : Err) : WriterState :=
  { st with terminal := StreamTerminal.aborted e }

/-- Lifecycle events emitted by the streaming completion run. -/
inductive LLMEvent where
  | newToken (token : String)
  | llmEnd
  | llmError (e : Err)
deriving DecidableEq

/-- Dispatch one lifecycle event to the registered callback (source lines 49–64). -/
def handleEvent (st : WriterState) : LLMEvent → WriterState
  | LLMEvent.newToken t => handleLLMNewToken st t
  | LLMEvent.llmEnd => handleLLMEnd st
  | LLMEvent.llmError e => handleLLMError st e

/-- One streaming completion run: the tokens the model emits, in generation
order, and whether the run ends normally (`error = none`) or fails. -/
structure LLMRun where
  tokens : List String
  error : Option Err
deriving DecidableEq

/-- The lifecycle events of a run, in the order the completion service fires
the callbacks: every token in generation order, then exactly one of
end-of-run or error. -/
def eventsOfRun (run : LLMRun) : List LLMEvent :=
  run.tokens.map LLMEvent.newToken ++
    [match run.error with
     | none => LLMEvent.llmEnd
     | some e => LLMEvent.llmError e]

/-- The stream state after the callbacks processed a list of events. -/
def runCallbacks (evs : List LLMEvent) (st : WriterState) : WriterState :=
  evs.foldl handleEvent st

/-- The final state of the output stream produced by one completion run. -/
def streamOfRun (run : LLMRun) : WriterState :=
  runCallbacks (eventsOfRun run) initialWriter

/-! ## Query orchestrator (`queryPineconeVectorStoreAndQueryLLM`, source lines 8–86) -/

/-- A similarity match returned by `index.query`; the code reads
`match.metadata.pageContent`. -/
structure QMatch where
  metadata : VectorMeta
deriving DecidableEq

/-- The `queryRequest` of source lines 23–30. -/
structure QueryRequest where
  topK : Nat
  vector : Emb
  includeMetadata : Bool
  includeValues : Bool
deriving DecidableEq

/-- The response of `index.query`. -/
structure QueryResponse where
  «matches» : List QMatch
deriving DecidableEq

/-- A `langchain` `Document` passed to the chain (source line 77). -/
structure ChainDocument where
  pageContent : String
deriving DecidableEq

/-- The input of `chain.call` (source lines 76–79). -/
structure ChainInput where
  input_documents : List ChainDocument
  question : String
deriving DecidableEq

/-- Environment of the query orchestrator: the embedding service, the retrieved
index handle `client.Index(indexName)`, and the streaming completion chain
(`loadQAStuffChain` over the `OpenAI` model), whose run is observed as its
token/terminal callback sequence. -/
structure QueryEnv where
  embedQuery : String → Emb
  query : QueryRequest → QueryResponse
  chainRun : ChainInput → LLMRun

/-- The query request built on source lines 23–30: top 10 matches, metadata and
values included, the vector being the embedded question. -/
def queryRequestFor (env : QueryEnv) (question : String) : QueryRequest :=
  { topK := 10
    vector := env.embedQuery question
    includeMetadata := true
    includeValues := true }

/-- The fixed tail appended to the question (template literal of source lines
73–74): a trailing space, a newline, the literal's 32-space indentation, and
the condition sentence. -/
def questionCondition : String :=
  " \n                                Condition: End with a URL on where to find more information about the question, only if you know the answer."

/-- The result of the query orchestrator: the query request it issued, the
output stream it returned (`none` models the `undefined` fall-through when
there are no matches), and the calls made to the completion chain. -/
structure QueryOutcome where
  request : QueryRequest
  stream : Option WriterState
  chainCalls : List ChainInput
deriving DecidableEq

/-- `queryPineconeVectorStoreAndQueryLLM(client, indexName, question)` (source
lines 8–86): embed the question, query the index, and — only when at least one
match exists (`if (queryResponse.«matches».length)`) — build the concatenated
context, call the chain with the augmented question and return the readable
side of the stream the callbacks write into.  With no matches, nothing is
returned and the chain is never called. -/
def queryPineconeVectorStoreAndQueryLLM (env : QueryEnv) (indexName : String)
    (question : String) : QueryOutcome :=
  let request := queryRequestFor env question
  let queryResponse := env.query request
  if queryResponse.«matches».length ≠ 0 then
    let concatenatedPageContent :=
      String.intercalate " " (queryResponse.«matches».map fun m => m.metadata.pageContent)
    let augmentedQuestion := "Question: " ++ question ++ questionCondition
    let chainInput : ChainInput :=
      { input_documents := [{ pageContent := concatenatedPageContent }]
        question := augmentedQuestion }
    { request := request
      stream := some (streamOfRun (env.chainRun chainInput))
      chainCalls := [chainInput] }
  else
    { request := request, stream := none, chainCalls := [] }

/-! ## Concrete instances used by witnesses and counterexamples -/

/-- A configuration whose (spec-claimed) batch size is 3, smaller than the
constant the code actually uses. -/
def cfgSmallBatch : Config := { timeout := 0, batchSize := 3 }

/-- A configuration for exercising `createPineconeIndex`. -/
def cfgBasic : Config := { timeout := 5, batchSize := 10 }

/-- An ingestion environment whose splitter produces four chunks. -/
def envFourChunks : UpdateEnv :=
  { splitText := fun _ =>
      [{ pageContent := "c0", metadata := { loc := "l" } },
       { pageContent := "c1", metadata := { loc := "l" } },
       { pageContent := "c2", metadata := { loc := "l" } },
       { pageContent := "c3", metadata := { loc := "l" } }]
    embedDocuments := fun ts => Except.ok (ts.map fun _ => ([] : Emb))
    upsert := fun _ => Except.ok ()
    stringifyLoc := fun s => s }

/-- A document with source `"s"`. -/
def docFour : Doc := { pageContent := "irrelevant", metadata := { source := "s" } }

/-- The four vector records `envFourChunks` ingestion produces for `docFour`. -/
def fourVectors : List PineVector :=
  [{ id := "s_0", values := [], metadata := { loc := "l", pageContent := "c0", txtPath := "s" } },
   { id := "s_1", values := [], metadata := { loc := "l", pageContent := "c1", txtPath := "s" } },
   { id := "s_2", values := [], metadata := { loc := "l", pageContent := "c2", txtPath := "s" } },
   { id := "s_3", values := [], metadata := { loc := "l", pageContent := "c3", txtPath := "s" } }]

/-- A query environment whose index returns no match. -/
def envNoMatch : QueryEnv :=
  { embedQuery := fun _ => ([] : Emb)
    query := fun _ => { «matches» := [] }
    chainRun := fun _ => { tokens := [], error := none } }

/-- A query environment whose index returns exactly one match. -/
def envOneMatch : QueryEnv :=
  { embedQuery := fun _ => ([1] : Emb)
    query := fun _ =>
      { «matches» := [{ metadata := { loc := "l", pageContent := "ctx", txtPath := "t" } }] }
    chainRun := fun _ => { tokens := ["t1", "t2"], error := none } }

/-- An index environment that already contains index `"a"`. -/
def idxEnvA : IndexEnv := { listIndexes := ["a"] }

/-- An ingestion environment whose splitter produces two chunks, one of them
containing a newline. -/
def envIngest : UpdateEnv :=
  { splitText := fun _ =>
      [{ pageContent := "a\nb", metadata := { loc := "l0" } },
       { pageContent := "c", metadata := { loc := "l1" } }]
    embedDocuments := fun ts => Except.ok (ts.map fun _ => ([3] : Emb))
    upsert := fun _ => Except.ok ()
    stringifyLoc := fun s => s }

/-- A document ingested by the witness environments. -/
def docW : Doc := { pageContent := "a\nb c", metadata := { source := "src" } }

/-- An ingestion environment whose embedding endpoint always fails. -/
def envFail : UpdateEnv :=
  { splitText := fun _ => [{ pageContent := "x", metadata := { loc := "l" } }]
    embedDocuments := fun _ => Except.error "boom"
    upsert := fun _ => Except.ok ()
    stringifyLoc := fun s => s }

/-- A further document that must not be processed after a failure. -/
def docAfter : Doc := { pageContent := "later", metadata := { source := "s2" } }

/-! ## Helper lemmas -/

theorem runCallbacks_newTokens (ts : List String) (st : WriterState) :
    runCallbacks (ts.map LLMEvent.newToken) st =
      { written := st.written ++ ts, terminal := st.terminal } := by
  induction ts generalizing st with
  | nil => simp [runCallbacks]
  | cons t ts ih =>
    have hstep : runCallbacks ((t :: ts).map LLMEvent.newToken) st
        = runCallbacks (ts.map LLMEvent.newToken) (handleLLMNewToken st t) := rfl
    rw [hstep, ih]
    simp [handleLLMNewToken]

theorem streamOfRun_eq (run : LLMRun) :
    streamOfRun run =
      { written := run.tokens
        terminal :=
          match run.error with
          | none => StreamTerminal.closed
          | some e => StreamTerminal.aborted e } := by
  unfold streamOfRun eventsOfRun
  have h := runCallbacks_newTokens run.tokens initialWriter
  unfold runCallbacks at h ⊢
  rw [List.foldl_append, h]
  cases run.error with
  | none => rfl
  | some e => rfl

/-! ## Claims about the completion streamer -/

/-- Claim C6: for every sequence of tokens emitted by the completion service,
the sequence of tokens written to the output stream equals the emitted
sequence — same tokens, same order, no reordering, no drops, no duplication. -/
theorem claim_C6_tokens_written_in_generation_order (run : LLMRun) :
    (streamOfRun run).written = run.tokens := by
  rw [streamOfRun_eq]

/-- Claim C7: every streaming run reaches exactly one terminal state — the
stream is closed when the run ends normally and aborted with the model error
when it fails — and before the final lifecycle event the stream is still open,
so a terminal state is never entered twice nor re-entered. -/
theorem claim_C7_exactly_one_terminal_state (run : LLMRun) :
    ((streamOfRun run).terminal =
      match run.error with
      | none => StreamTerminal.closed
      | some e => StreamTerminal.aborted e)
    ∧ ∀ k, k < (eventsOfRun run).length →
        (runCallbacks ((eventsOfRun run).take k) initialWriter).terminal =
          StreamTerminal.streamOpen := by
  constructor
  · rw [streamOfRun_eq]
  · intro k hk
    have hlen : (eventsOfRun run).length = run.tokens.length + 1 := by
      simp [eventsOfRun]
    have hk' : k ≤ run.tokens.length := by omega
    have htake : (eventsOfRun run).take k = (run.tokens.take k).map LLMEvent.newToken := by
      unfold eventsOfRun
      rw [List.take_append_of_le_length (by simpa using hk')]
      exact (List.map_take LLMEvent.newToken run.tokens k).symm
    rw [htake, runCallbacks_newTokens]
    rfl

/-- Witness for C7 at a concrete two-token successful run. -/
theorem claim_C7_exactly_one_terminal_state_witness :
    ((streamOfRun { tokens := ["t1", "t2"], error := none }).terminal =
      StreamTerminal.closed)
    ∧ (runCallbacks ((eventsOfRun { tokens := ["t1", "t2"], error := none }).take 2)
        initialWriter).terminal = StreamTerminal.streamOpen :=
  ⟨(claim_C7_exactly_one_terminal_state { tokens := ["t1", "t2"], error := none }).1,
   (claim_C7_exactly_one_terminal_state { tokens := ["t1", "t2"], error := none }).2 2
     (by decide)⟩

/-! ## Claims about the query orchestrator -/

/-- Claim C1: when the index query for a question returns zero matches, the
orchestrator returns no stream (the `undefined` fall-through, not an error) and
never calls the completion service. -/
theorem claim_C1_no_matches_no_stream_no_completion (env : QueryEnv)
    (indexName question : String)
    (h : (env.query (queryRequestFor env question)).«matches» = []) :
    (queryPineconeVectorStoreAndQueryLLM env indexName question).stream = none
    ∧ (queryPineconeVectorStoreAndQueryLLM env indexName question).chainCalls = [] := by
  simp [queryPineconeVectorStoreAndQueryLLM, h]

/-- Witness for C1 at a concrete environment with an empty match list. -/
theorem claim_C1_no_matches_no_stream_no_completion_witness :
    (envNoMatch.query (queryRequestFor envNoMatch "q")).«matches» = []
    ∧ ((queryPineconeVectorStoreAndQueryLLM envNoMatch "idx" "q").stream = none
      ∧ (queryPineconeVectorStoreAndQueryLLM envNoMatch "idx" "q").chainCalls = []) :=
  ⟨rfl, claim_C1_no_matches_no_stream_no_completion envNoMatch "idx" "q" rfl⟩

/-- Claim C8: with at least one match, the orchestrator embeds the question,
queries with `topK = 10` and metadata included, concatenates all matches'
`pageContent` in returned order joined by single spaces, and calls the chain
once with the question augmented by the fixed source-URL condition. -/
theorem claim_C8_match_path_builds_context_and_calls_chain (env : QueryEnv)
    (indexName question : String)
    (h : (env.query (queryRequestFor env question)).«matches» ≠ []) :
    queryPineconeVectorStoreAndQueryLLM env indexName question =
      { request :=
          { topK := 10
            vector := env.embedQuery question
            includeMetadata := true
            includeValues := true }
        stream := some (streamOfRun (env.chainRun
          { input_documents :=
              [{ pageContent := String.intercalate " "
                  ((env.query (queryRequestFor env question)).«matches».map
                    fun m => m.metadata.pageContent) }]
            question := "Question: " ++ question ++ questionCondition }))
        chainCalls :=
          [{ input_documents :=
              [{ pageContent := String.intercalate " "
                  ((env.query (queryRequestFor env question)).«matches».map
                    fun m => m.metadata.pageContent) }]
             question := "Question: " ++ question ++ questionCondition }] } := by
  have hlen : (env.query (queryRequestFor env question)).«matches».length ≠ 0 := by
    simpa [List.length_eq_zero] using h
  simp only [queryPineconeVectorStoreAndQueryLLM]
  rw [if_pos hlen]
  rfl

/-- Witness for C8 at a concrete environment with one match. -/
theorem claim_C8_match_path_builds_context_and_calls_chain_witness :
    (envOneMatch.query (queryRequestFor envOneMatch "q")).«matches» ≠ []
    ∧ queryPineconeVectorStoreAndQueryLLM envOneMatch "idx" "q" =
      { request :=
          { topK := 10
            vector := envOneMatch.embedQuery "q"
            includeMetadata := true
            includeValues := true }
        stream := some (streamOfRun (envOneMatch.chainRun
          { input_documents :=
              [{ pageContent := String.intercalate " "
                  ((envOneMatch.query (queryRequestFor envOneMatch "q")).«matches».map
                    fun m => m.metadata.pageContent) }]
            question := "Question: " ++ "q" ++ questionCondition }))
        chainCalls :=
          [{ input_documents :=
              [{ pageContent := String.intercalate " "
                  ((envOneMatch.query (queryRequestFor envOneMatch "q")).«matches».map
                    fun m => m.metadata.pageContent) }]
             question := "Question: " ++ "q" ++ questionCondition }] } :=
  ⟨by decide,
   claim_C8_match_path_builds_context_and_calls_chain envOneMatch "idx" "q" (by decide)⟩

/-! ## Claim about index creation -/

/-- Claim C5: `createPineconeIndex` calls `createIndex` if and only if the name
is absent from `listIndexes`; when creating it uses the given name and
dimension with metric `"cosine"` and then waits the fixed configured delay;
when the index exists it issues no create call and performs no wait. -/
theorem claim_C5_create_iff_absent (cfg : Config) (env : IndexEnv)
    (indexName : String) (dim : Nat) :
    (env.listIndexes.contains indexName = false →
      createPineconeIndex cfg env indexName dim =
        [IdxEvent.createIndex { name := indexName, dimension := dim, metric := "cosine" },
         IdxEvent.waitDelay cfg.timeout])
    ∧ (env.listIndexes.contains indexName = true →
      createPineconeIndex cfg env indexName dim = [])
    ∧ ((∃ r, IdxEvent.createIndex r ∈ createPineconeIndex cfg env indexName dim) ↔
        env.listIndexes.contains indexName = false) := by
  cases hc : env.listIndexes.contains indexName with
  | false =>
    have hmem : indexName ∉ env.listIndexes := by simpa using hc
    refine ⟨fun _ => ?_, fun ht => ?_, ?_⟩
    · simp [createPineconeIndex, hmem]
    · simp [hc] at ht
    · simp [createPineconeIndex, hmem]
  | true =>
    have hmem : indexName ∈ env.listIndexes := by simpa using hc
    refine ⟨fun hf => ?_, fun _ => ?_, ?_⟩
    · simp [hc] at hf
    · simp [createPineconeIndex, hmem]
    · simp [createPineconeIndex, hmem]

/-- Witness for C5: with existing index `"a"`, creating `"b"` issues the create
call and the wait, while `"a"` issues nothing. -/
theorem claim_C5_create_iff_absent_witness :
    (idxEnvA.listIndexes.contains "b" = false
      ∧ createPineconeIndex cfgBasic idxEnvA "b" 3 =
          [IdxEvent.createIndex { name := "b", dimension := 3, metric := "cosine" },
           IdxEvent.waitDelay cfgBasic.timeout])
    ∧ (idxEnvA.listIndexes.contains "a" = true
      ∧ createPineconeIndex cfgBasic idxEnvA "a" 3 = []) :=
  ⟨⟨rfl, (claim_C5_create_iff_absent cfgBasic idxEnvA "b" 3).1 rfl⟩,
   ⟨rfl, (claim_C5_create_iff_absent cfgBasic idxEnvA "a" 3).2.1 rfl⟩⟩

/-! ## Helper lemmas about ingestion -/

theorem upsertBatches_flatten_aux (bs : Nat) :
    ∀ (vs batch : List PineVector), vs ≠ [] →
      (upsertBatches bs batch vs).flatten = batch ++ vs := by
  intro vs
  induction vs with
  | nil => intro batch h; exact absurd rfl h
  | cons v rest ih =>
    intro batch _
    simp only [upsertBatches]
    split_ifs with h
    · rcases eq_or_ne rest [] with hr | hr
      · subst hr
        simp [upsertBatches]
      · rw [List.flatten_cons, ih [] hr]
        simp
    · have hr : rest ≠ [] := fun hre => h (Or.inr hre)
      rw [ih (batch ++ [v]) hr]
      simp

theorem upsertBatches_flatten (bs : Nat) (vs : List PineVector) :
    (upsertBatches bs [] vs).flatten = vs := by
  cases vs with
  | nil => rfl
  | cons v rest =>
    rw [upsertBatches_flatten_aux bs (v :: rest) [] (by simp)]
    simp

theorem upsertBatches_length_le (bs : Nat) :
    ∀ (vs batch : List PineVector), batch.length < bs →
      ∀ b ∈ upsertBatches bs batch vs, 0 < b.length ∧ b.length ≤ bs := by
  intro vs
  induction vs with
  | nil => intro batch _ b hb; simp [upsertBatches] at hb
  | cons v rest ih =>
    intro batch hlt b hb
    simp only [upsertBatches] at hb
    split_ifs at hb with h
    · rcases List.mem_cons.mp hb with rfl | hb
      · refine ⟨by simp, ?_⟩
        simp only [List.length_append, List.length_cons, List.length_nil]
        omega
      · exact ih [] (by simpa using Nat.lt_of_le_of_lt (Nat.zero_le batch.length) hlt) b hb
    · have hlen : (batch ++ [v]).length < bs := by
        rcases not_or.mp h with ⟨h1, _⟩
        simp only [List.length_append, List.length_cons, List.length_nil] at h1 ⊢
        omega
      exact ih (batch ++ [v]) hlen b hb

theorem runUpserts_mem (env : UpdateEnv) :
    ∀ (bs : List (List PineVector)) (vs : List PineVector),
      IngestEvent.upsertCall vs ∈ (runUpserts env bs).1 → vs ∈ bs := by
  intro bs
  induction bs with
  | nil => intro vs h; simp [runUpserts] at h
  | cons b rest ih =>
    intro vs h
    simp only [runUpserts] at h
    cases hu : env.upsert b with
    | ok u =>
      rw [hu] at h
      simp only [List.mem_cons] at h
      rcases h with h | h
      · cases h; simp
      · exact List.mem_cons_of_mem b (ih vs h)
    | error e =>
      rw [hu] at h
      simp only [List.mem_cons, List.not_mem_nil, or_false] at h
      cases h; simp

theorem runUpserts_ok_trace (env : UpdateEnv) :
    ∀ bs : List (List PineVector), (runUpserts env bs).2 = none →
      (runUpserts env bs).1 = bs.map IngestEvent.upsertCall := by
  intro bs
  induction bs with
  | nil => intro _; rfl
  | cons b rest ih =>
    intro h
    simp only [runUpserts] at h ⊢
    cases hu : env.upsert b with
    | ok u =>
      rw [hu] at h
      have h' : (runUpserts env rest).2 = none := h
      show IngestEvent.upsertCall b :: (runUpserts env rest).1 =
        List.map IngestEvent.upsertCall (b :: rest)
      rw [List.map_cons, ih h']
    | error e =>
      rw [hu] at h
      simp at h

theorem upsertedVectors_nil : upsertedVectors [] = [] := rfl

theorem upsertedVectors_append (a b : List IngestEvent) :
    upsertedVectors (a ++ b) = upsertedVectors a ++ upsertedVectors b :=
  List.flatMap_append ..

theorem upsertedVectors_map_upsertCall :
    ∀ bs : List (List PineVector),
      upsertedVectors (bs.map IngestEvent.upsertCall) = bs.flatten := by
  intro bs
  induction bs with
  | nil => rfl
  | cons b rest ih =>
    simp only [List.map_cons, List.flatten_cons, ← ih]
    rfl

theorem processDoc_embed_ok (env : UpdateEnv) (doc : Doc) (embs : List Emb)
    (h : env.embedDocuments (embedInputs env doc) = .ok embs) :
    processDoc env doc =
      (IngestEvent.splitCall doc.pageContent ::
         IngestEvent.embedCall (embedInputs env doc) ::
         (runUpserts env (upsertBatches batchSize [] (docVectors env doc embs))).1,
       (runUpserts env (upsertBatches batchSize [] (docVectors env doc embs))).2) := by
  unfold processDoc
  rw [h]

theorem processDoc_embed_err (env : UpdateEnv) (doc : Doc) (e : Err)
    (h : env.embedDocuments (embedInputs env doc) = .error e) :
    processDoc env doc =
      ([IngestEvent.splitCall doc.pageContent,
        IngestEvent.embedCall (embedInputs env doc)], some e) := by
  unfold processDoc
  rw [h]

theorem processDoc_upsert_le (env : UpdateEnv) (doc : Doc) (vs : List PineVector)
    (h : IngestEvent.upsertCall vs ∈ (processDoc env doc).1) :
    0 < vs.length ∧ vs.length ≤ batchSize := by
  cases hemb : env.embedDocuments (embedInputs env doc) with
  | error e =>
    rw [processDoc_embed_err env doc e hemb] at h
    simp at h
  | ok embs =>
    rw [processDoc_embed_ok env doc embs hemb] at h
    simp only [List.mem_cons] at h
    rcases h with h | h | h
    · cases h
    · cases h
    · exact upsertBatches_length_le batchSize _ [] (by simp [batchSize]) vs
        (runUpserts_mem env _ vs h)

theorem mkVectorsFrom_ids (env : UpdateEnv) (p : String) (embs : List Emb) :
    ∀ (cs : List Chunk) (i : Nat),
      (mkVectorsFrom env p embs i cs).map (fun v => v.id) =
        (List.range' i cs.length).map (fun k => p ++ "_" ++ toString k) := by
  intro cs
  induction cs with
  | nil => intro i; rfl
  | cons c cs ih =>
    intro i
    simp only [mkVectorsFrom, List.map_cons, List.length_cons, List.range'_succ]
    rw [ih (i + 1)]

theorem mkVectorsFrom_pageContent (env : UpdateEnv) (p : String) (embs : List Emb) :
    ∀ (cs : List Chunk) (i : Nat),
      (mkVectorsFrom env p embs i cs).map (fun v => v.metadata.pageContent) =
        cs.map (fun c => c.pageContent) := by
  intro cs
  induction cs with
  | nil => intro i; rfl
  | cons c cs ih =>
    intro i
    simp only [mkVectorsFrom, List.map_cons]
    rw [ih (i + 1)]

theorem processDoc_ok_ids (env : UpdateEnv) (doc : Doc)
    (hok : (processDoc env doc).2 = none) :
    upsertedIds (processDoc env doc).1 =
      (List.range (env.splitText doc.pageContent).length).map
        (fun i => doc.metadata.source ++ "_" ++ toString i) := by
  cases hemb : env.embedDocuments (embedInputs env doc) with
  | error e =>
    rw [processDoc_embed_err env doc e hemb] at hok
    simp at hok
  | ok embs =>
    rw [processDoc_embed_ok env doc embs hemb] at hok ⊢
    simp only at hok
    unfold upsertedIds
    have h1 : upsertedVectors
        (IngestEvent.splitCall doc.pageContent ::
          IngestEvent.embedCall (embedInputs env doc) ::
          (runUpserts env (upsertBatches batchSize [] (docVectors env doc embs))).1,
         (runUpserts env (upsertBatches batchSize [] (docVectors env doc embs))).2).1 =
        upsertedVectors
          (runUpserts env (upsertBatches batchSize [] (docVectors env doc embs))).1 := rfl
    rw [h1, runUpserts_ok_trace env _ hok, upsertedVectors_map_upsertCall,
      upsertBatches_flatten]
    unfold docVectors
    rw [mkVectorsFrom_ids]
    rw [← List.range_eq_range']
    rfl

theorem updatePinecone_ok (env : UpdateEnv) (indexName : String) :
    ∀ docs : List Doc, (updatePinecone env indexName docs).2 = none →
      (updatePinecone env indexName docs).1 = docs.flatMap (fun d => (processDoc env d).1)
      ∧ ∀ d ∈ docs, (processDoc env d).2 = none := by
  intro docs
  induction docs with
  | nil => intro _; exact ⟨rfl, by simp⟩
  | cons doc rest ih =>
    intro h
    simp only [updatePinecone] at h ⊢
    cases hp : (processDoc env doc).2 with
    | some e =>
      rw [hp] at h
      simp at h
    | none =>
      rw [hp] at h
      have h' : (updatePinecone env indexName rest).2 = none := h
      obtain ⟨ht, hall⟩ := ih h'
      constructor
      · show (processDoc env doc).1 ++ (updatePinecone env indexName rest).1 =
          (doc :: rest).flatMap fun d => (processDoc env d).1
        rw [List.flatMap_cons, ht]
      · intro d hd
        rcases List.mem_cons.mp hd with rfl | hd
        · exact hp
        · exact hall d hd

theorem updatePinecone_event_mem (env : UpdateEnv) (indexName : String) :
    ∀ (docs : List Doc) (ev : IngestEvent),
      ev ∈ (updatePinecone env indexName docs).1 →
      ∃ d ∈ docs, ev ∈ (processDoc env d).1 := by
  intro docs
  induction docs with
  | nil => intro ev h; simp [updatePinecone] at h
  | cons doc rest ih =>
    intro ev h
    simp only [updatePinecone] at h
    cases hp : (processDoc env doc).2 with
    | some e =>
      rw [hp] at h
      exact ⟨doc, by simp, h⟩
    | none =>
      rw [hp] at h
      rcases List.mem_append.mp h with h | h
      · exact ⟨doc, by simp, h⟩
      · obtain ⟨d, hd, hev⟩ := ih ev h
        exact ⟨d, by simp [hd], hev⟩

theorem upsertedIds_flatMap (f : Doc → List IngestEvent) :
    ∀ docs : List Doc,
      upsertedIds (docs.flatMap f) = docs.flatMap (fun d => upsertedIds (f d)) := by
  intro docs
  induction docs with
  | nil => rfl
  | cons d rest ih =>
    simp only [List.flatMap_cons]
    unfold upsertedIds
    rw [upsertedVectors_append, List.map_append]
    unfold upsertedIds at ih
    rw [ih]

theorem flatMap_congr_mem {α β : Type} (l : List α) (f g : α → List β)
    (h : ∀ a ∈ l, f a = g a) : l.flatMap f = l.flatMap g := by
  induction l with
  | nil => rfl
  | cons a rest ih =>
    simp only [List.flatMap_cons]
    rw [h a (by simp), ih fun a ha => h a (by simp [ha])]

/-! ## Claims about ingestion -/

/-- Claim C3: every upsert call issued while processing a document carries at
most `batchSize` vectors, and when processing succeeds the concatenation of the
upserted batches is exactly the full chunk-order sequence of vector records —
the final (possibly partial) batch included, nothing dropped or duplicated. -/
theorem claim_C3_batches_bounded_and_complete (env : UpdateEnv) (doc : Doc)
    (embs : List Emb)
    (h : env.embedDocuments (embedInputs env doc) = .ok embs) :
    (∀ vs, IngestEvent.upsertCall vs ∈ (processDoc env doc).1 →
      0 < vs.length ∧ vs.length ≤ batchSize)
    ∧ ((processDoc env doc).2 = none →
      upsertedVectors (processDoc env doc).1 = docVectors env doc embs) := by
  constructor
  · intro vs hvs
    exact processDoc_upsert_le env doc vs hvs
  · intro hok
    rw [processDoc_embed_ok env doc embs h] at hok ⊢
    have hok' :
        (runUpserts env (upsertBatches batchSize [] (docVectors env doc embs))).2 =
          none := hok
    have hv : upsertedVectors
        (IngestEvent.splitCall doc.pageContent ::
          IngestEvent.embedCall (embedInputs env doc) ::
          (runUpserts env (upsertBatches batchSize [] (docVectors env doc embs))).1,
         (runUpserts env (upsertBatches batchSize [] (docVectors env doc embs))).2).1 =
        upsertedVectors
          (runUpserts env (upsertBatches batchSize [] (docVectors env doc embs))).1 := rfl
    rw [hv, runUpserts_ok_trace env _ hok', upsertedVectors_map_upsertCall,
      upsertBatches_flatten]

/-- Witness for C3 at a two-chunk document that fits in one batch. -/
theorem claim_C3_batches_bounded_and_complete_witness :
    (envIngest.embedDocuments (embedInputs envIngest docW) = Except.ok [[3], [3]])
    ∧ ((∀ vs, IngestEvent.upsertCall vs ∈ (processDoc envIngest docW).1 →
        0 < vs.length ∧ vs.length ≤ batchSize)
      ∧ ((processDoc envIngest docW).2 = none →
        upsertedVectors (processDoc envIngest docW).1 = docVectors envIngest docW [[3], [3]])) :=
  ⟨rfl, claim_C3_batches_bounded_and_complete envIngest docW [[3], [3]] rfl⟩

/-- Claim C2: a successful ingestion upserts, for each document of source `s`
splitting into `n` chunks, exactly the ids `s_0 … s_{n-1}`, in order; any two
successful runs over the same documents with the same splitter therefore
produce the same ids, so re-ingestion addresses the same records. -/
theorem claim_C2_deterministic_ids (env env₂ : UpdateEnv)
    (indexName indexName₂ : String) (docs : List Doc)
    (hsplit : env₂.splitText = env.splitText)
    (h1 : (updatePinecone env indexName docs).2 = none)
    (h2 : (updatePinecone env₂ indexName₂ docs).2 = none) :
    upsertedIds (updatePinecone env indexName docs).1 =
      docs.flatMap (fun d =>
        (List.range (env.splitText d.pageContent).length).map
          fun i => d.metadata.source ++ "_" ++ toString i)
    ∧ upsertedIds (updatePinecone env₂ indexName₂ docs).1 =
      upsertedIds (updatePinecone env indexName docs).1 := by
  have key : ∀ (e : UpdateEnv) (nm : String), (updatePinecone e nm docs).2 = none →
      upsertedIds (updatePinecone e nm docs).1 =
        docs.flatMap (fun d =>
          (List.range (e.splitText d.pageContent).length).map
            fun i => d.metadata.source ++ "_" ++ toString i) := by
    intro e nm hok
    obtain ⟨ht, hall⟩ := updatePinecone_ok e nm docs hok
    rw [ht, upsertedIds_flatMap]
    exact flatMap_congr_mem docs _ _ fun d hd => processDoc_ok_ids e d (hall d hd)
  refine ⟨key env indexName h1, ?_⟩
  rw [key env indexName h1, key env₂ indexName₂ h2, hsplit]

/-- Witness for C2: two successful runs over the same document agree on the
ids `src_0`, `src_1`. -/
theorem claim_C2_deterministic_ids_witness :
    (envIngest.splitText = envIngest.splitText)
    ∧ ((updatePinecone envIngest "i" [docW]).2 = none)
    ∧ ((updatePinecone envIngest "i2" [docW]).2 = none)
    ∧ (upsertedIds (updatePinecone envIngest "i" [docW]).1 =
        [docW].flatMap (fun d =>
          (List.range (envIngest.splitText d.pageContent).length).map
            fun i => d.metadata.source ++ "_" ++ toString i)
      ∧ upsertedIds (updatePinecone envIngest "i2" [docW]).1 =
        upsertedIds (updatePinecone envIngest "i" [docW]).1) :=
  ⟨rfl, rfl, rfl,
   claim_C2_deterministic_ids envIngest envIngest "i" "i2" [docW] rfl rfl rfl⟩

/-- Claim C4: if processing a document fails (embedding or any upsert), the
whole run stops there: the trace is exactly the successful prefix followed by
the failed document's events — nothing of the remaining documents is split,
embedded or upserted, there is no retry, and the error propagates unmodified. -/
theorem claim_C4_failure_aborts_and_propagates (env : UpdateEnv) (indexName : String)
    (docs₁ : List Doc) (d : Doc) (docs₂ : List Doc) (e : Err)
    (h1 : (updatePinecone env indexName docs₁).2 = none)
    (h2 : (processDoc env d).2 = some e) :
    updatePinecone env indexName (docs₁ ++ d :: docs₂) =
      ((updatePinecone env indexName docs₁).1 ++ (processDoc env d).1, some e) := by
  induction docs₁ with
  | nil =>
    show updatePinecone env indexName (d :: docs₂) = _
    simp only [updatePinecone]
    rw [h2]
    rfl
  | cons doc rest ih =>
    have h1' := h1
    simp only [updatePinecone] at h1'
    cases hp : (processDoc env doc).2 with
    | some e' =>
      rw [hp] at h1'
      simp at h1'
    | none =>
      rw [hp] at h1'
      have h1'' : (updatePinecone env indexName rest).2 = none := h1'
      have hih := ih h1''
      show updatePinecone env indexName (doc :: (rest ++ d :: docs₂)) = _
      simp only [updatePinecone]
      rw [hp, hih]
      simp [List.append_assoc]

/-- Witness for C4: with an always-failing embedding endpoint, ingesting
`[docW, docAfter]` stops at `docW` and the later document contributes no
events. -/
theorem claim_C4_failure_aborts_and_propagates_witness :
    ((updatePinecone envFail "i" []).2 = none)
    ∧ ((processDoc envFail docW).2 = some "boom")
    ∧ updatePinecone envFail "i" ([] ++ docW :: [docAfter]) =
        ((updatePinecone envFail "i" []).1 ++ (processDoc envFail docW).1, some "boom") :=
  ⟨rfl, rfl,
   claim_C4_failure_aborts_and_propagates envFail "i" [] docW [docAfter] "boom" rfl rfl⟩

/-- Claim C10: the texts sent to the embedding endpoint are the chunks'
`pageContent` with every newline replaced by a space, while each stored vector's
`metadata.pageContent` keeps the chunk's original text — so the embedded text
can differ from the text later retrieved as context. -/
theorem claim_C10_embedded_text_differs_from_stored (env : UpdateEnv) (doc : Doc)
    (embs : List Emb)
    (h : env.embedDocuments (embedInputs env doc) = .ok embs) :
    IngestEvent.embedCall ((docChunks env doc).map fun c => removeNewlines c.pageContent)
        ∈ (processDoc env doc).1
    ∧ (docVectors env doc embs).map (fun v => v.metadata.pageContent) =
        (docChunks env doc).map fun c => c.pageContent := by
  constructor
  · rw [processDoc_embed_ok env doc embs h]
    have he : IngestEvent.embedCall
        ((docChunks env doc).map fun c => removeNewlines c.pageContent) =
        IngestEvent.embedCall (embedInputs env doc) := rfl
    rw [he]
    simp
  · exact mkVectorsFrom_pageContent env doc.metadata.source embs (docChunks env doc) 0

/-- Witness for C10: for the chunk `"a\nb"`, the embedded text is `"a b"` while
the stored metadata keeps `"a\nb"`, and the two differ. -/
theorem claim_C10_embedded_text_differs_from_stored_witness :
    (envIngest.embedDocuments (embedInputs envIngest docW) = Except.ok [[3], [3]])
    ∧ (IngestEvent.embedCall
        ((docChunks envIngest docW).map fun c => removeNewlines c.pageContent)
          ∈ (processDoc envIngest docW).1
      ∧ (docVectors envIngest docW [[3], [3]]).map (fun v => v.metadata.pageContent) =
          (docChunks envIngest docW).map fun c => c.pageContent)
    ∧ (docChunks envIngest docW).map (fun c => removeNewlines c.pageContent) = ["a b", "c"]
    ∧ (docChunks envIngest docW).map (fun c => c.pageContent) = ["a\nb", "c"]
    ∧ ("a b" : String) ≠ "a\nb" :=
  ⟨rfl,
   claim_C10_embedded_text_differs_from_stored envIngest docW [[3], [3]] rfl,
   by decide, rfl, by decide⟩

/-- Claim C9 is false on the code: the batch size is not taken from the
environment-driven configuration.  With a configuration whose batch size is 3,
ingesting a four-chunk document issues an upsert call carrying 4 vectors. -/
theorem claim_C9_counterexample :
    ¬ (∀ (cfg : Config) (env : UpdateEnv) (indexName : String) (docs : List Doc)
        (vs : List PineVector),
        IngestEvent.upsertCall vs ∈ (updatePinecone env indexName docs).1 →
        vs.length ≤ cfg.batchSize) :=
  fun h =>
    absurd (h cfgSmallBatch envFourChunks "i" [docFour] fourVectors (by decide))
      (by decide)

/-- Claim C9 (amended): the upsert batch size is the hard-coded constant 10
(`const batchSize = 10`, source line 153), not supplied by configuration; every
upsert call carries at most that constant number of vectors. -/
theorem claim_C9_amended_hardcoded_batch_size :
    batchSize = 10
    ∧ ∀ (env : UpdateEnv) (indexName : String) (docs : List Doc) (vs : List PineVector),
        IngestEvent.upsertCall vs ∈ (updatePinecone env indexName docs).1 →
        vs.length ≤ batchSize := by
  refine ⟨rfl, ?_⟩
  intro env indexName docs vs hvs
  obtain ⟨d, _, hev⟩ := updatePinecone_event_mem env indexName docs _ hvs
  exact (processDoc_upsert_le env d vs hev).2

/-- Witness for the amended C9 at the four-chunk ingestion run. -/
theorem claim_C9_amended_hardcoded_batch_size_witness :
    (IngestEvent.upsertCall fourVectors ∈ (updatePinecone envFourChunks "i" [docFour]).1)
    ∧ fourVectors.length ≤ batchSize :=
  ⟨by decide,
   claim_C9_amended_hardcoded_batch_size.2 envFourChunks "i" [docFour] fourVectors
     (by decide)⟩
